import Mathlib

/-!
Verification of the Segmentation and Quota-Allocation Engine of the
ai-flashcard-generator repository (files `ai-flashcards-from-manpage-v3.py`
and `ai-flashcard-generator.py`).

Shallow embedding conventions:
* A document is a `List Char` (Python `str`).
* The size-measurement collaborator `count_tokens` (tiktoken in the source)
  is modelled as character count, one of the two size units the external
  interface of the program permits ("raw character count or a model-specific
  token count"); the segmentation and allocation logic is agnostic to it.
* Fallible Python code is modelled with `Option`: `none` stands for a raised
  exception (`ZeroDivisionError`, `NameError`) or for divergence of a loop
  (fuel exhaustion of a `while` loop that does not terminate).
* Python's `round` (round-half-to-even on the float `size/total*quota`) is
  modelled as exact round-half-to-even on the rational `size*quota/total`,
  computed on naturals.
-/

/-- `consHead c ps` prepends the character `c` to the first piece of `ps`
(the piece list is never empty in use). Helper for modelling `re.split`. -/
def consHead (c : Char) : List (List Char) → List (List Char)
  | [] => [[c]]
  | p :: ps => (c :: p) :: ps

/-- Model of `re.split(r'\n\n+', content)` (line 80 of
`ai-flashcards-from-manpage-v3.py`): split on maximal runs of two or more
newlines.  The second argument is `true` while the scanner is inside such a
run (consuming the remaining newlines of the delimiter). -/
def reSplitGo : List Char → Bool → List (List Char)
  | [], _ => [[]]
  | c :: rest, true =>
    if c = '\n' then reSplitGo rest true else consHead c (reSplitGo rest false)
  | c :: rest, false =>
    if c = '\n' then
      match rest with
      | [] => [['\n']]
      | c2 :: rest2 =>
        if c2 = '\n' then [] :: reSplitGo rest2 true
        else consHead '\n' (consHead c2 (reSplitGo rest2 false))
    else consHead c (reSplitGo rest false)

/-- `re.split(r'\n\n+', content)`: the major sections of the document. -/
def reSplitNN (content : List Char) : List (List Char) :=
  reSplitGo content false

/-- Replace every maximal run of two or more newlines by a single newline.
This is the canonical "blank-line runs collapsed at primary split points"
normal form of a document, defined independently of the splitter; the flag
is `true` inside a run being collapsed. -/
def collapseGo : List Char → Bool → List Char
  | [], _ => []
  | c :: rest, true =>
    if c = '\n' then collapseGo rest true else c :: collapseGo rest false
  | c :: rest, false =>
    if c = '\n' then
      match rest with
      | [] => ['\n']
      | c2 :: rest2 =>
        if c2 = '\n' then '\n' :: collapseGo rest2 true
        else '\n' :: c2 :: collapseGo rest2 false
    else c :: collapseGo rest false

/-- A document with blank-line runs collapsed to single line breaks. -/
def collapseBlank (content : List Char) : List Char :=
  collapseGo content false

/-- Model of Python `"\n".join(pieces)`. -/
def joinNL : List (List Char) → List Char
  | [] => []
  | [p] => p
  | p :: q :: r => p ++ '\n' :: joinNL (q :: r)

/-- Model of `count_tokens` (line 64): the size-measurement collaborator.
The source calls tiktoken; the external-interface contract of the program
allows the measure to be raw character count, which is what we use, keeping
the segmentation logic unchanged. -/
def count_tokens (cs : List Char) : Nat := cs.length

/-- Index of the last `'\n'` in a character list, if any. -/
def lastNLIdx : List Char → Option Nat
  | [] => none
  | c :: rest =>
    match lastNLIdx rest with
    | some j => some (j + 1)
    | none => if c = '\n' then some 0 else none

/-- Model of `current.rfind('\n', 0, len(current) // 2)` with the `-1`
fallback replaced by `len(current) // 2` (lines 99-101 of the source):
the split point used by the oversize-splitting loop. -/
def splitPoint (cur : List Char) : Nat :=
  match lastNLIdx (cur.take (cur.length / 2)) with
  | some j => j
  | none => cur.length / 2

/-- Model of the oversize-splitting `while` loop (lines 98-104):
`while count_tokens(current) > TOKEN_LIMIT: split_point = rfind(...);
refined.append(current[:split_point]); current = current[split_point:].lstrip()`.
Returns the emitted prefixes and the final remainder; `none` models
divergence (fuel exhaustion). -/
def splitLongFuel (limit : Nat) : Nat → List Char → Option (List (List Char) × List Char)
  | 0, _ => none
  | fuel + 1, cur =>
    if count_tokens cur ≤ limit then some ([], cur)
    else
      match splitLongFuel limit fuel ((cur.drop (splitPoint cur)).dropWhile Char.isWhitespace) with
      | none => none
      | some (l, fin) => some (cur.take (splitPoint cur) :: l, fin)

/-- Model of the joining/refinement `for` loop of `split_into_sections`
(lines 84-109).  Each produced segment is tagged: `true` when it was emitted
by the oversize-splitting `while` loop (line 102), `false` when it was
flushed from the greedy-coalescing buffer (line 93).  The `while` loop is run
with fuel `length + 1`, which suffices whenever the token limit is positive
(see `splitLongFuel_total`). -/
def refineGo (limit : Nat) : List (List Char) → List Char → Option (List (List Char × Bool) × List Char)
  | [], cur => some ([], cur)
  | s :: rest, cur =>
    let combined := cur ++ (if cur = [] then [] else ['\n']) ++ s
    let flushed : List (List Char × Bool) :=
      if count_tokens combined ≤ limit then []
      else if cur = [] then [] else [(cur, false)]
    let cur1 := if count_tokens combined ≤ limit then combined else s
    match splitLongFuel limit (cur1.length + 1) cur1 with
    | none => none
    | some (em, cur2) =>
      match refineGo limit rest cur2 with
      | none => none
      | some (out, curF) => some (flushed ++ em.map (fun p => (p, true)) ++ out, curF)

/-- Model of `split_into_sections(content, model)` (lines 78-112), with the
segments tagged by their origin (`true`: emitted by the oversize split,
`false`: committed from the coalescing buffer, including the final
`refined_sections.append(current)` at line 108). -/
def split_into_sectionsT (content : List Char) (limit : Nat) :
    Option (List (List Char × Bool)) :=
  match refineGo limit (reSplitNN content) [] with
  | none => none
  | some (out, curF) =>
    some (out ++ if curF = [] then [] else [(curF, false)])

/-- Model of `split_into_sections(content, model)` (lines 78-112): the list
of produced sections, `none` modelling divergence of the inner loop. -/
def split_into_sections (content : List Char) (limit : Nat) :
    Option (List (List Char)) :=
  (split_into_sectionsT content limit).map (List.map Prod.fst)

/-- Python `round` applied to the non-negative rational `n / d`:
round half to even (banker's rounding).  The source computes the operand in
floating point; we use the exact rational value. -/
def pyRoundNat (n d : Nat) : Nat :=
  if 2 * (n % d) < d then n / d
  else if d < 2 * (n % d) then n / d + 1
  else if (n / d) % 2 = 0 then n / d else n / d + 1

/-- The per-segment quota of `generate_flashcards` (lines 121-124):
`cards_to_generate = max(1, round(section_tokens / total_tokens * num_cards))`
followed by the clamp `if len(flashcards) + cards_to_generate > num_cards:
cards_to_generate = num_cards - len(flashcards)`. -/
def allocShare (size q total assigned : Nat) : Nat :=
  if q < assigned + max 1 (pyRoundNat (size * q) total) then q - assigned
  else max 1 (pyRoundNat (size * q) total)

/-- The quota-allocation loop of `generate_flashcards` (lines 115-127),
viewed as the Allocator component: each segment consumes exactly its
assigned share (the running length of `flashcards` advances by
`cards_to_generate`).  `none` models the `ZeroDivisionError` raised by
`section_tokens / total_tokens` when the total size is zero.  After the
`break` (share clamped to `0`, or the quota exhausted) every remaining
segment's quota is `0`. -/
def allocateGo (q total : Nat) : List Nat → Nat → Option (List Nat)
  | [], _ => some []
  | size :: rest, assigned =>
    if total = 0 then none
    else
      let share := allocShare size q total assigned
      if share = 0 ∨ q ≤ assigned then some (List.replicate (rest.length + 1) 0)
      else
        match allocateGo q total rest (assigned + share) with
        | none => none
        | some l => some (share :: l)

/-- The Allocator: distribute `q` generation requests over segments of the
given sizes (`total_tokens = sum(count_tokens(section) ...)`, line 117). -/
def allocate (sizes : List Nat) (q : Nat) : Option (List Nat) :=
  allocateGo q sizes.sum sizes 0

/-- The per-section loop of `generate_flashcards` (lines 119-183) with the
generation collaborator abstracted: each section comes paired with the list
of records its generation response parses to.  The loop extends the
accumulated list by `section_flashcards[:cards_to_generate]` (line 179) and
breaks when the share is clamped to zero or the cap is reached (line 126). -/
def genGo {α : Type} (q total : Nat) : List (Nat × List α) → List α → Option (List α)
  | [], fl => some fl
  | (size, out) :: rest, fl =>
    if total = 0 then none
    else
      let c := allocShare size q total fl.length
      if c = 0 ∨ q ≤ fl.length then some fl
      else genGo q total rest (fl ++ out.take c)

/-- Model of `generate_flashcards` (lines 115-183): run the per-section loop
and return `flashcards[:num_cards]` (line 183). -/
def generate_flashcards {α : Type} (secs : List (Nat × List α)) (q : Nat) :
    Option (List α) :=
  (genGo q (secs.map Prod.fst).sum secs []).map (fun fl => fl.take q)

/-- Model of Python `text.split('\n')`. -/
def splitLines : List Char → List (List Char)
  | [] => [[]]
  | c :: rest =>
    if c = '\n' then [] :: splitLines rest else consHead c (splitLines rest)

/-- Model of Python `str.strip()`. -/
def trimWS (cs : List Char) : List Char :=
  ((cs.dropWhile Char.isWhitespace).reverse.dropWhile Char.isWhitespace).reverse

/-- The literal marker `"Question:"`. -/
def qMark : List Char := ['Q', 'u', 'e', 's', 't', 'i', 'o', 'n', ':']

/-- The literal marker `"Answer:"`. -/
def aMark : List Char := ['A', 'n', 's', 'w', 'e', 'r', ':']

/-- The Record Parser: the line loop of `generate_flashcards` in
`ai-flashcard-generator.py` (lines 34-39; identical in
`ai-flashcards-from-manpage-v3.py` lines 172-177 up to a constant prompt
decoration).  The single-slot `question` variable is `none` while it is
still unbound; an `Answer:` line read in that state raises `NameError`
(modelled as `none`).  `question` is never cleared after a record is
emitted, exactly as in the source. -/
def parseGo (question : Option (List Char)) :
    List (List Char) → Option (List (List Char × List Char))
  | [] => some []
  | line :: rest =>
    if qMark.isPrefixOf line then parseGo (some (trimWS (line.drop 9))) rest
    else if aMark.isPrefixOf line then
      match question with
      | none => none
      | some qu =>
        match parseGo (some qu) rest with
        | none => none
        | some l => some ((qu, trimWS (line.drop 7)) :: l)
    else parseGo question rest

/-- The Record Parser applied to a whole response text. -/
def parse_records (text : List Char) : Option (List (List Char × List Char)) :=
  parseGo none (splitLines text)

/-- A list of whitespace characters. -/
def wsOnly (w : List Char) : Prop := ∀ c ∈ w, c.isWhitespace = true

/-- `Glue segs target`: `target` is the segments of `segs` concatenated in
order, with only (possibly empty) runs of whitespace characters between
consecutive segments, before the first and after the last.  This is the
"concatenation after normalizing the joining whitespace" relation used to
state content preservation of the Segmenter. -/
inductive Glue : List (List Char) → List Char → Prop
  | nil (w : List Char) : wsOnly w → Glue [] w
  | cons (w s t : List Char) (rest : List (List Char)) :
      wsOnly w → Glue rest t → Glue (s :: rest) (w ++ (s ++ t))

/-- The collapsed remaining document represented by a coalescing state:
the current buffer joined to the remaining major sections.  When the buffer
is empty the joining newline is absent, mirroring
`current + ("\n" if current else "") + section`. -/
def joinTarget (cur : List Char) (rest : List (List Char)) : List Char :=
  if cur = [] then joinNL rest else joinNL (cur :: rest)

/-- The text contributed by the remaining pieces of a `"\n"`-join after the
first piece: empty when no pieces remain, otherwise a joining newline
followed by the join of the pieces. -/
def tailNL (rest : List (List Char)) : List Char :=
  match rest with
  | [] => []
  | _ :: _ => '\n' :: joinNL rest

/-! ## Allocator lemmas -/

theorem allocShare_eq_zero {size q total assigned : Nat}
    (h : allocShare size q total assigned = 0) : q ≤ assigned := by
  unfold allocShare at h
  have h1 : 1 ≤ max 1 (pyRoundNat (size * q) total) := le_max_left _ _
  by_cases hc : q < assigned + max 1 (pyRoundNat (size * q) total)
  · rw [if_pos hc] at h; omega
  · rw [if_neg hc] at h; omega

theorem allocShare_add_le {size q total assigned : Nat} (h : assigned ≤ q) :
    assigned + allocShare size q total assigned ≤ q := by
  unfold allocShare
  by_cases hc : q < assigned + max 1 (pyRoundNat (size * q) total)
  · rw [if_pos hc]; omega
  · rw [if_neg hc]; omega

theorem allocateGo_spec (q total : Nat) (htotal : total ≠ 0) :
    ∀ (rest : List Nat) (assigned : Nat) (l : List Nat),
      assigned ≤ q → allocateGo q total rest assigned = some l →
      l.length = rest.length ∧ assigned + l.sum ≤ q ∧
        (q ≤ assigned + l.sum ∨ rest.length ≤ l.sum) := by
  intro rest
  induction rest with
  | nil =>
    intro assigned l hass h
    simp only [allocateGo, Option.some.injEq] at h
    subst h
    refine ⟨rfl, ?_, Or.inr (by simp)⟩
    simpa using hass
  | cons size rest ih =>
    intro assigned l hass h
    simp only [allocateGo, if_neg htotal] at h
    by_cases hbr : allocShare size q total assigned = 0 ∨ q ≤ assigned
    · rw [if_pos hbr] at h
      have hq : q ≤ assigned := by
        rcases hbr with h0 | h0
        · exact allocShare_eq_zero h0
        · exact h0
      simp only [Option.some.injEq] at h
      subst h
      have hsum0 : (List.replicate (rest.length + 1) (0 : Nat)).sum = 0 := by simp
      exact ⟨by simp, by omega, Or.inl (by omega)⟩
    · rw [if_neg hbr] at h
      push_neg at hbr
      obtain ⟨hsh, hlt⟩ := hbr
      cases heq : allocateGo q total rest (assigned + allocShare size q total assigned) with
      | none => rw [heq] at h; cases h
      | some l' =>
        rw [heq] at h
        simp only [Option.some.injEq] at h
        subst h
        have hle : assigned + allocShare size q total assigned ≤ q :=
          allocShare_add_le (Nat.le_of_lt hlt)
        obtain ⟨hlen, hsum, hmin⟩ := ih _ l' hle heq
        have h1 : 1 ≤ allocShare size q total assigned := Nat.pos_of_ne_zero hsh
        refine ⟨by simp [hlen], ?_, ?_⟩
        · simp only [List.sum_cons]; omega
        · simp only [List.sum_cons, List.length_cons]; omega

theorem allocateGo_isSome (q total : Nat) (htotal : total ≠ 0) :
    ∀ (rest : List Nat) (assigned : Nat), (allocateGo q total rest assigned).isSome := by
  intro rest
  induction rest with
  | nil => intro assigned; simp [allocateGo]
  | cons size rest ih =>
    intro assigned
    simp only [allocateGo, if_neg htotal]
    by_cases hbr : allocShare size q total assigned = 0 ∨ q ≤ assigned
    · rw [if_pos hbr]; simp
    · rw [if_neg hbr]
      cases heq : allocateGo q total rest (assigned + allocShare size q total assigned) with
      | none =>
        have hsome := ih (assigned + allocShare size q total assigned)
        rw [heq] at hsome
        simp at hsome
      | some l => simp [heq]

theorem pyRoundNat_le_one {n d : Nat} (h : n < d) : pyRoundNat n d ≤ 1 := by
  unfold pyRoundNat
  have hq : n / d = 0 := Nat.div_eq_of_lt h
  rw [hq]
  split
  · omega
  · split
    · omega
    · split <;> omega

theorem allocateGo_replicate (n q s : Nat) (hs : 0 < s) (hqn : q < n) :
    ∀ (m assigned : Nat), assigned ≤ q → q - assigned < m →
      allocateGo q (n * s) (List.replicate m s) assigned =
        some (List.replicate (q - assigned) 1 ++ List.replicate (m - (q - assigned)) 0) := by
  intro m
  induction m with
  | zero => intro assigned _ h; omega
  | succ m ih =>
    intro assigned hass hlt
    have htot : n * s ≠ 0 := Nat.mul_ne_zero (by omega) (by omega)
    have hraw : pyRoundNat (s * q) (n * s) ≤ 1 := by
      apply pyRoundNat_le_one
      calc s * q = q * s := Nat.mul_comm s q
        _ < n * s := (Nat.mul_lt_mul_right hs).mpr hqn
    have hmax : max 1 (pyRoundNat (s * q) (n * s)) = 1 := by omega
    rw [List.replicate_succ]
    simp only [allocateGo, if_neg htot, allocShare, hmax, List.length_replicate]
    by_cases hcase : assigned = q
    · subst hcase
      simp
    · have hlt' : assigned < q := by omega
      rw [if_neg (show ¬ q < assigned + 1 by omega),
        if_neg (show ¬ ((1 : Nat) = 0 ∨ q ≤ assigned) by omega),
        ih (assigned + 1) (by omega) (by omega),
        show q - assigned = (q - (assigned + 1)) + 1 by omega,
        List.replicate_succ,
        show m + 1 - (q - (assigned + 1) + 1) = m - (q - (assigned + 1)) by omega,
        List.cons_append]

/-! ## Claim theorems: allocator -/

/-- Claim C1 (counterexample): with three equal-size segments (total size
positive) and total quota 100 ≥ 3 segments, the allocator returns
[33, 33, 33], whose sum 99 falls short of the quota — "sum(quotas) ==
total_quota exactly whenever total_quota >= count(segments)" is false. -/
theorem C1_counterexample :
    (3 : Nat) ≤ 100 ∧ 0 < ([100, 100, 100] : List Nat).sum ∧
      allocate [100, 100, 100] 100 = some [33, 33, 33] ∧
      ([33, 33, 33] : List Nat).sum ≠ 100 :=
  ⟨by decide, by decide, by decide, by decide⟩

/-- Claim C1 (amended): for every segment sequence with positive total size
and every non-negative total quota, the allocator returns one non-negative
integer per segment and the sum never exceeds the quota; whenever the quota
is at least the number of segments, the sum is at least the number of
segments (every raw share is at least 1), but the sum may still fall short
of the quota — rounding can lose quota. -/
theorem C1_allocator_bounds (sizes : List Nat) (q : Nat) (l : List Nat)
    (hpos : 0 < sizes.sum) (h : allocate sizes q = some l) :
    l.length = sizes.length ∧ l.sum ≤ q ∧
      (sizes.length ≤ q → sizes.length ≤ l.sum) := by
  obtain ⟨hlen, hsum, hmin⟩ :=
    allocateGo_spec q sizes.sum (by omega) sizes 0 l (Nat.zero_le q) h
  exact ⟨hlen, by omega, fun hq => by omega⟩

/-- Witness for C1: the amended bounds instantiated at sizes [2, 2] with
quota 5. -/
theorem C1_witness :
    0 < ([2, 2] : List Nat).sum ∧ allocate [2, 2] 5 = some [2, 2] ∧
      (([2, 2] : List Nat).length = ([2, 2] : List Nat).length ∧
        ([2, 2] : List Nat).sum ≤ 5 ∧
        (([2, 2] : List Nat).length ≤ 5 →
          ([2, 2] : List Nat).length ≤ ([2, 2] : List Nat).sum)) :=
  ⟨by decide, by decide, C1_allocator_bounds [2, 2] 5 [2, 2] (by decide) (by decide)⟩

/-- Claim C4 (counterexample): five segments with skewed sizes
[1000, 1, 1, 1, 1] and quota 3 < 5: the first segment's rounded
proportional share is 3, so the allocator returns [3, 0, 0, 0, 0] — not
"exactly 1 to each of the first 3 segments". -/
theorem C4_counterexample :
    (3 : Nat) < ([1000, 1, 1, 1, 1] : List Nat).length ∧ (0 : Nat) < 3 ∧
      allocate [1000, 1, 1, 1, 1] 3 = some [3, 0, 0, 0, 0] ∧
      ([3, 0, 0, 0, 0] : List Nat) ≠ [1, 1, 1, 0, 0] :=
  ⟨by decide, by decide, by decide, by decide⟩

/-- Claim C4 (amended): when all segments have equal positive size and
count(segments) > total_quota > 0, the first total_quota segments each
receive exactly 1 and the rest receive 0. -/
theorem C4_equal_sizes (n q s : Nat) (hqn : q < n) (hq : 0 < q) (hs : 0 < s) :
    allocate (List.replicate n s) q =
      some (List.replicate q 1 ++ List.replicate (n - q) 0) := by
  unfold allocate
  rw [List.sum_const_nat]
  have h := allocateGo_replicate n q s hs hqn n 0 (Nat.zero_le q) (by omega)
  simpa using h

/-- Witness for C4: 5 equal segments, quota 3 — allocation [1, 1, 1, 0, 0]. -/
theorem C4_witness :
    allocate (List.replicate 5 2) 3 =
      some (List.replicate 3 1 ++ List.replicate 2 0) :=
  C4_equal_sizes 5 3 2 (by decide) (by decide) (by decide)

/-- Claim C7 (counterexample): invoking the allocator on an empty segment
sequence with positive total quota 5 does not signal an error: the loop body
never runs and the empty list is returned normally. -/
theorem C7_counterexample :
    allocate [] 5 = some [] ∧ allocate [] 5 ≠ none :=
  ⟨rfl, by decide⟩

/-- Claim C7 (amended): the allocator on an empty segment sequence returns
the empty sequence for every total quota, positive or zero — no error is
signalled (allocate([], 0) = [] holds as claimed). -/
theorem C7_empty_allocate : ∀ q : Nat, allocate ([] : List Nat) q = some [] :=
  fun _ => rfl

/-- Claim C9: whatever the per-segment generation outputs are, the record
list returned by generate_flashcards has length at most num_cards: the final
`flashcards[:num_cards]` truncation enforces the cap. -/
theorem C9_cap (α : Type) (secs : List (Nat × List α)) (q : Nat) (res : List α)
    (h : generate_flashcards secs q = some res) : res.length ≤ q := by
  unfold generate_flashcards at h
  cases heq : genGo q (secs.map Prod.fst).sum secs [] with
  | none => rw [heq] at h; cases h
  | some fl =>
    rw [heq] at h
    simp at h
    subst h
    exact List.length_take_le q fl

/-- Witness for C9: a single section whose generation yields one record,
with num_cards 2. -/
theorem C9_witness :
    generate_flashcards [(1, [7])] 2 = some [7] ∧ ([7] : List Nat).length ≤ 2 :=
  ⟨by decide, C9_cap Nat [(1, [7])] 2 [7] (by decide)⟩

/-- Claim C10: on a non-empty segment sequence of total size zero the
allocator's proportional share divides by zero and raises
(`ZeroDivisionError`, modelled as `none`); whenever the total size is
positive the allocation always returns normally. -/
theorem C10_zero_total_division :
    allocate [0, 0] 1 = none ∧
      ∀ (sizes : List Nat) (q : Nat), 0 < sizes.sum → (allocate sizes q).isSome := by
  refine ⟨by decide, fun sizes q h => ?_⟩
  exact allocateGo_isSome q sizes.sum (by omega) sizes 0

/-- Witness for C10: the totality half instantiated at sizes [5, 3]. -/
theorem C10_witness :
    0 < ([5, 3] : List Nat).sum ∧ (allocate [5, 3] 2).isSome :=
  ⟨by decide, C10_zero_total_division.2 [5, 3] 2 (by decide)⟩

/-! ## Claim theorems: record parser -/

/-- Claim C5 (counterexample): on the claim's own scenario input the parser
does not drop the orphan `Answer:` line.  The pending question is never
cleared after a record is emitted, so the orphan answer is paired with the
still-pending previous question and three records are produced, not two. -/
theorem C5_counterexample :
    parse_records
        "Question: What is X?\nAnswer: X is Y\nAnswer: orphan\nQuestion: Q2\nAnswer: A2".data ≠
      some [("What is X?".data, "X is Y".data), ("Q2".data, "A2".data)] ∧
    parse_records
        "Question: What is X?\nAnswer: X is Y\nAnswer: orphan\nQuestion: Q2\nAnswer: A2".data =
      some [("What is X?".data, "X is Y".data), ("What is X?".data, "orphan".data),
        ("Q2".data, "A2".data)] :=
  ⟨by decide, by decide⟩

/-- Claim C5 (amended): lines matching neither marker are ignored without
error, but an `Answer:` line with no pending prompt is not: before any
`Question:` line it raises an error (the `question` variable is unbound),
and after an emitted record it is paired with the still-pending previous
prompt.  The scenario input therefore yields three records. -/
theorem C5_parser_scenario :
    parse_records
        "Question: What is X?\nAnswer: X is Y\nAnswer: orphan\nQuestion: Q2\nAnswer: A2".data =
      some [("What is X?".data, "X is Y".data), ("What is X?".data, "orphan".data),
        ("Q2".data, "A2".data)] ∧
    parse_records "Answer: hi".data = none ∧
    parse_records "noise line\nQuestion: Q\nmore noise\nAnswer: A".data =
      some [("Q".data, "A".data)] :=
  ⟨by decide, by decide, by decide⟩

/-- Claim C8 (counterexample): a line with leading whitespace before the
`Question:` marker is not recognized: on `"  Question: Q\nAnswer: A"` no
pending prompt is ever set, so the `Answer:` line finds the question
variable unbound and the parser raises instead of returning the record;
without the leading whitespace the marker is recognized. -/
theorem C8_counterexample :
    parse_records "  Question: Q\nAnswer: A".data = none ∧
      parse_records "Question: Q\nAnswer: A".data = some [("Q".data, "A".data)] :=
  ⟨by decide, by decide⟩

/-- Claim C8 (amended): a marker is recognized exactly when the raw line
starts with the literal marker, with no whitespace stripping beforehand: a
line beginning with any whitespace character matches neither marker and is
ignored (parser state and output unchanged). -/
theorem C8_no_strip (c : Char) (lrest : List Char) (st : Option (List Char))
    (ls : List (List Char)) (hc : c.isWhitespace = true) :
    parseGo st ((c :: lrest) :: ls) = parseGo st ls := by
  have hc' : ((c = ' ' ∨ c = '\t') ∨ c = '\r') ∨ c = '\n' := by
    simpa [Char.isWhitespace] using hc
  have hQ : ('Q' == c) = false := by
    rcases hc' with ((h | h) | h) | h <;> subst h <;> decide
  have hA : ('A' == c) = false := by
    rcases hc' with ((h | h) | h) | h <;> subst h <;> decide
  simp [parseGo, qMark, aMark, List.isPrefixOf, hQ, hA]

/-- Witness for C8: a line starting with a space character is ignored. -/
theorem C8_witness :
    parseGo none ([' ', 'Q'] :: []) = parseGo none [] :=
  C8_no_strip ' ' ['Q'] none [] (by decide)

/-! ## Segmenter lemmas: termination of the oversize-splitting loop -/

theorem lastNLIdx_lt_length : ∀ (xs : List Char) (j : Nat),
    lastNLIdx xs = some j → j < xs.length := by
  intro xs
  induction xs with
  | nil => intro j h; cases h
  | cons c rest ih =>
    intro j h
    simp only [lastNLIdx] at h
    cases heq : lastNLIdx rest with
    | some j' =>
      rw [heq] at h
      simp only [Option.some.injEq] at h
      have := ih j' heq
      simp only [List.length_cons]
      omega
    | none =>
      rw [heq] at h
      by_cases hc : c = '\n'
      · rw [if_pos hc] at h
        simp only [Option.some.injEq] at h
        simp only [List.length_cons]
        omega
      · rw [if_neg hc] at h; cases h

theorem lastNLIdx_zero : ∀ (xs : List Char),
    lastNLIdx xs = some 0 → ∃ t, xs = '\n' :: t := by
  intro xs
  cases xs with
  | nil => intro h; cases h
  | cons c rest =>
    intro h
    simp only [lastNLIdx] at h
    cases heq : lastNLIdx rest with
    | some j' => rw [heq] at h; simp at h
    | none =>
      rw [heq] at h
      by_cases hc : c = '\n'
      · exact ⟨rest, by rw [hc]⟩
      · rw [if_neg hc] at h; cases h

theorem splitPoint_le (cur : List Char) : splitPoint cur ≤ cur.length / 2 := by
  unfold splitPoint
  cases heq : lastNLIdx (cur.take (cur.length / 2)) with
  | none => exact Nat.le_refl _
  | some j =>
    have hj := lastNLIdx_lt_length _ j heq
    have h2 := List.length_take_le (cur.length / 2) cur
    show j ≤ cur.length / 2
    omega

theorem take_eq_cons_nl {cur : List Char} {n : Nat} {t : List Char}
    (h : cur.take n = '\n' :: t) : ∃ t', cur = '\n' :: t' := by
  cases cur with
  | nil => simp at h
  | cons c rest =>
    cases n with
    | zero => simp at h
    | succ n =>
      simp only [List.take_succ_cons, List.cons.injEq] at h
      exact ⟨rest, by rw [h.1]⟩

theorem splitRemainder_lt (cur : List Char) (h2 : 2 ≤ cur.length) :
    ((cur.drop (splitPoint cur)).dropWhile Char.isWhitespace).length < cur.length := by
  by_cases hp : splitPoint cur = 0
  · have hnl : ∃ t', cur = '\n' :: t' := by
      unfold splitPoint at hp
      cases heq : lastNLIdx (cur.take (cur.length / 2)) with
      | none =>
        rw [heq] at hp
        have h0 : cur.length / 2 = 0 := hp
        omega
      | some j =>
        rw [heq] at hp
        have hj0 : j = 0 := hp
        subst hj0
        obtain ⟨t, ht⟩ := lastNLIdx_zero _ heq
        exact take_eq_cons_nl ht
    obtain ⟨t', ht'⟩ := hnl
    rw [hp, List.drop_zero, ht', List.dropWhile_cons_of_pos (by decide)]
    have := (List.dropWhile_sublist (l := t') Char.isWhitespace).length_le
    simp only [ht', List.length_cons]
    omega
  · have h1 : 1 ≤ splitPoint cur := Nat.pos_of_ne_zero hp
    have hle :=
      (List.dropWhile_sublist (l := cur.drop (splitPoint cur)) Char.isWhitespace).length_le
    rw [List.length_drop] at hle
    omega

theorem splitLongFuel_total (limit : Nat) (hlim : 1 ≤ limit) :
    ∀ (fuel : Nat) (cur : List Char), cur.length < fuel →
      ∃ r, splitLongFuel limit fuel cur = some r := by
  intro fuel
  induction fuel with
  | zero => intro cur h; omega
  | succ fuel ih =>
    intro cur hlen
    by_cases hc : count_tokens cur ≤ limit
    · exact ⟨([], cur), by simp [splitLongFuel, hc]⟩
    · have h2 : 2 ≤ cur.length := by
        unfold count_tokens at hc; omega
      have hdec := splitRemainder_lt cur h2
      obtain ⟨⟨l, fin⟩, hr⟩ :=
        ih ((cur.drop (splitPoint cur)).dropWhile Char.isWhitespace) (by omega)
      refine ⟨(cur.take (splitPoint cur) :: l, fin), ?_⟩
      simp only [splitLongFuel, if_neg hc, hr]

theorem splitLongFuel_final_le (limit : Nat) :
    ∀ (fuel : Nat) (cur : List Char) (l : List (List Char)) (fin : List Char),
      splitLongFuel limit fuel cur = some (l, fin) → count_tokens fin ≤ limit := by
  intro fuel
  induction fuel with
  | zero => intro cur l fin h; cases h
  | succ fuel ih =>
    intro cur l fin h
    simp only [splitLongFuel] at h
    by_cases hc : count_tokens cur ≤ limit
    · rw [if_pos hc] at h
      simp only [Option.some.injEq, Prod.mk.injEq] at h
      obtain ⟨-, h2⟩ := h
      subst h2
      exact hc
    · rw [if_neg hc] at h
      cases heq : splitLongFuel limit fuel
          ((cur.drop (splitPoint cur)).dropWhile Char.isWhitespace) with
      | none => rw [heq] at h; cases h
      | some r =>
        obtain ⟨l', fin'⟩ := r
        simp only [heq, Option.some.injEq, Prod.mk.injEq] at h
        obtain ⟨-, h2⟩ := h
        subst h2
        exact ih _ _ _ heq

theorem refineGo_total (limit : Nat) (hlim : 1 ≤ limit) :
    ∀ (rest : List (List Char)) (cur : List Char),
      (refineGo limit rest cur).isSome := by
  intro rest
  induction rest with
  | nil => intro cur; simp [refineGo]
  | cons s rest ih =>
    intro cur
    simp only [refineGo]
    obtain ⟨⟨em, cur2⟩, hsplit⟩ :=
      splitLongFuel_total limit hlim _ _ (Nat.lt_succ_self
        (if count_tokens (cur ++ (if cur = [] then [] else ['\n']) ++ s) ≤ limit
          then cur ++ (if cur = [] then [] else ['\n']) ++ s else s).length)
    simp only [hsplit]
    have hr := ih cur2
    cases hrec : refineGo limit rest cur2 with
    | none => rw [hrec] at hr; simp at hr
    | some r =>
      obtain ⟨out, curF⟩ := r
      simp [hrec]

/-- Claim C6: for every document and every positive budget the segmenter
terminates and returns a result: the oversize-splitting loop strictly
shrinks its string each iteration, so fuel `length + 1` always suffices and
`split_into_sections` returns `some`. -/
theorem C6_segmenter_total (content : List Char) (limit : Nat) (hlim : 1 ≤ limit) :
    (split_into_sections content limit).isSome := by
  unfold split_into_sections split_into_sectionsT
  have h := refineGo_total limit hlim (reSplitNN content) []
  cases hr : refineGo limit (reSplitNN content) [] with
  | none => rw [hr] at h; simp at h
  | some r =>
    obtain ⟨out, curF⟩ := r
    simp [hr]

/-- Witness for C6: the segmenter terminates on a concrete document with
budget 1. -/
theorem C6_witness : (split_into_sections "ab\n\ncd".data 1).isSome :=
  C6_segmenter_total "ab\n\ncd".data 1 (by decide)

/-! ## Segmenter lemmas: budget bound for coalescing-buffer segments -/

theorem not_mem_map_tag_false {em : List (List Char)} {s : List Char}
    (h : (s, false) ∈ em.map (fun p => (p, true))) : False := by
  simp only [List.mem_map, Prod.mk.injEq] at h
  obtain ⟨a, -, -, hb⟩ := h
  cases hb

theorem refineGo_untagged_le (limit : Nat) :
    ∀ (rest : List (List Char)) (cur : List Char) (out : List (List Char × Bool))
      (curF : List Char),
      count_tokens cur ≤ limit → refineGo limit rest cur = some (out, curF) →
      (∀ s, (s, false) ∈ out → count_tokens s ≤ limit) ∧ count_tokens curF ≤ limit := by
  intro rest
  induction rest with
  | nil =>
    intro cur out curF hcur h
    simp only [refineGo, Option.some.injEq, Prod.mk.injEq] at h
    obtain ⟨h1, h2⟩ := h
    subst h1
    subst h2
    exact ⟨fun s hs => absurd hs (by simp), hcur⟩
  | cons s rest ih =>
    intro cur out curF hcur h
    simp only [refineGo] at h
    by_cases hc : count_tokens (cur ++ (if cur = [] then [] else ['\n']) ++ s) ≤ limit
    · simp only [if_pos hc] at h
      cases hsplit : splitLongFuel limit
          ((cur ++ (if cur = [] then [] else ['\n']) ++ s).length + 1)
          (cur ++ (if cur = [] then [] else ['\n']) ++ s) with
      | none => simp only [hsplit] at h; cases h
      | some r =>
        obtain ⟨em, cur2⟩ := r
        simp only [hsplit] at h
        cases hrec : refineGo limit rest cur2 with
        | none => simp only [hrec] at h; cases h
        | some r2 =>
          obtain ⟨out', curF'⟩ := r2
          simp only [hrec, Option.some.injEq, Prod.mk.injEq] at h
          obtain ⟨h1, h2⟩ := h
          subst h1
          subst h2
          have hcur2 : count_tokens cur2 ≤ limit := splitLongFuel_final_le limit _ _ _ _ hsplit
          obtain ⟨hout', hF⟩ := ih cur2 out' curF' hcur2 hrec
          refine ⟨fun t ht => ?_, hF⟩
          simp only [List.nil_append, List.mem_append] at ht
          rcases ht with ht | ht
          · exact absurd ht not_mem_map_tag_false
          · exact hout' t ht
    · simp only [if_neg hc] at h
      cases hsplit : splitLongFuel limit (s.length + 1) s with
      | none => simp only [hsplit] at h; cases h
      | some r =>
        obtain ⟨em, cur2⟩ := r
        simp only [hsplit] at h
        cases hrec : refineGo limit rest cur2 with
        | none => simp only [hrec] at h; cases h
        | some r2 =>
          obtain ⟨out', curF'⟩ := r2
          simp only [hrec, Option.some.injEq, Prod.mk.injEq] at h
          obtain ⟨h1, h2⟩ := h
          subst h1
          subst h2
          have hcur2 : count_tokens cur2 ≤ limit := splitLongFuel_final_le limit _ _ _ _ hsplit
          obtain ⟨hout', hF⟩ := ih cur2 out' curF' hcur2 hrec
          refine ⟨fun t ht => ?_, hF⟩
          simp only [List.mem_append] at ht
          rcases ht with (ht | ht) | ht
          · by_cases hcure : cur = []
            · simp [hcure] at ht
            · simp only [if_neg hcure, List.mem_singleton, Prod.mk.injEq] at ht
              rw [ht.1]
              exact hcur
          · exact absurd ht not_mem_map_tag_false
          · exact hout' t ht

/-- Claim C2 (counterexample): with budget 3 on the document
`"ab\ncd\nefghijklmn"` the segmenter returns the segment `"ab\ncd"`, whose
size 5 exceeds the budget even though it contains an internal line break —
the oversize-splitting step emits the prefix before the midpoint line break
without re-checking it against the budget, so an oversized segment need not
be a single indivisible line. -/
theorem C2_counterexample :
    split_into_sections "ab\ncd\nefghijklmn".data 3 =
        some ["ab\ncd".data, "efghi".data, "jk".data, "lmn".data] ∧
      3 < count_tokens "ab\ncd".data ∧ '\n' ∈ "ab\ncd".data :=
  ⟨by decide, by decide, by decide⟩

/-- Claim C2 (amended): every segment committed from the greedy-coalescing
buffer — the flushes at line 93 and the final segment at line 108, tagged
`false` — has size at most the budget; only segments emitted by the
oversize midpoint-splitting step (tagged `true`) may exceed it, and those
may contain internal line breaks. -/
theorem C2_untagged_segments (content : List Char) (limit : Nat)
    (tsegs : List (List Char × Bool)) (s : List Char) (hlim : 1 ≤ limit)
    (h : split_into_sectionsT content limit = some tsegs)
    (hmem : (s, false) ∈ tsegs) : count_tokens s ≤ limit := by
  unfold split_into_sectionsT at h
  cases hr : refineGo limit (reSplitNN content) [] with
  | none => rw [hr] at h; cases h
  | some r =>
    obtain ⟨out, curF⟩ := r
    simp only [hr, Option.some.injEq] at h
    subst h
    obtain ⟨hout, hF⟩ :=
      refineGo_untagged_le limit (reSplitNN content) [] out curF (by simp [count_tokens]) hr
    rcases List.mem_append.mp hmem with hm | hm
    · exact hout s hm
    · by_cases hcf : curF = []
      · simp [hcf] at hm
      · simp only [if_neg hcf, List.mem_singleton, Prod.mk.injEq] at hm
        rw [hm.1]
        exact hF

/-- Witness for C2: the tagged segmentation of the counterexample document;
its only `false`-tagged segment `"lmn"` is within the budget. -/
theorem C2_witness :
    split_into_sectionsT "ab\ncd\nefghijklmn".data 3 =
        some [("ab\ncd".data, true), ("efghi".data, true), ("jk".data, true),
          ("lmn".data, false)] ∧
      count_tokens "lmn".data ≤ 3 :=
  ⟨by decide,
    C2_untagged_segments "ab\ncd\nefghijklmn".data 3
      [("ab\ncd".data, true), ("efghi".data, true), ("jk".data, true),
        ("lmn".data, false)]
      "lmn".data (by decide) (by decide) (by decide)⟩

/-! ## Segmenter lemmas: content preservation modulo joining whitespace -/

theorem wsOnly_nil : wsOnly [] := fun c hc => absurd hc (List.not_mem_nil c)

theorem wsOnly_append {a b : List Char} (ha : wsOnly a) (hb : wsOnly b) :
    wsOnly (a ++ b) := by
  intro c hc
  rcases List.mem_append.mp hc with h | h
  · exact ha c h
  · exact hb c h

theorem wsOnly_takeWhile (cs : List Char) :
    wsOnly (cs.takeWhile Char.isWhitespace) :=
  fun _ hc => List.mem_takeWhile_imp hc

theorem wsOnly_nl : wsOnly ['\n'] := by
  intro c hc
  simp only [List.mem_singleton] at hc
  subst hc
  decide

theorem map_fst_tag (em : List (List Char)) :
    (em.map (fun p => (p, true))).map Prod.fst = em := by
  rw [List.map_map]
  exact List.map_id em

theorem map_fst_comp_tag (em : List (List Char)) :
    List.map (Prod.fst ∘ fun p : List Char => (p, true)) em = em :=
  List.map_id em

theorem Glue.prependWS {xs : List (List Char)} {t w : List Char}
    (hw : wsOnly w) (hg : Glue xs t) : Glue xs (w ++ t) := by
  cases hg with
  | nil _ hw2 => exact Glue.nil (w ++ t) (wsOnly_append hw hw2)
  | cons w2 s t2 rest hw2 hrest =>
    rw [← List.append_assoc]
    exact Glue.cons (w ++ w2) s t2 rest (wsOnly_append hw hw2) hrest

theorem Glue.dropLastEmpty : ∀ (xs : List (List Char)) (t : List Char),
    Glue (xs ++ [[]]) t → Glue xs t := by
  intro xs
  induction xs with
  | nil =>
    intro t h
    rw [List.nil_append] at h
    cases h with
    | cons w s t' rest hw hrest =>
      cases hrest with
      | nil _ hw' => simpa using Glue.nil (w ++ t') (wsOnly_append hw hw')
  | cons x xs ih =>
    intro t h
    rw [List.cons_append] at h
    cases h with
    | cons w s t' rest hw hrest =>
      exact Glue.cons w x t' xs hw (ih t' hrest)

theorem consHead_ne_nil (c : Char) (ps : List (List Char)) : consHead c ps ≠ [] := by
  cases ps <;> simp [consHead]

theorem joinNL_cons (p : List Char) (l : List (List Char)) :
    joinNL (p :: l) = p ++ tailNL l := by
  cases l with
  | nil => simp [joinNL, tailNL]
  | cons q r => rfl

theorem joinNL_cons_nil_of_ne (ps : List (List Char)) (h : ps ≠ []) :
    joinNL ([] :: ps) = '\n' :: joinNL ps := by
  cases ps with
  | nil => exact absurd rfl h
  | cons q r => rfl

theorem joinNL_consHead (c : Char) (ps : List (List Char)) :
    joinNL (consHead c ps) = c :: joinNL ps := by
  cases ps with
  | nil => rfl
  | cons p r =>
    cases r with
    | nil => rfl
    | cons q r2 => rfl

theorem reSplitGo_ne_nil : ∀ (cs : List Char) (b : Bool), reSplitGo cs b ≠ [] := by
  intro cs
  induction cs with
  | nil => intro b; cases b <;> simp [reSplitGo]
  | cons c rest ih =>
    intro b
    cases b with
    | true =>
      simp only [reSplitGo]
      by_cases hc : c = '\n'
      · rw [if_pos hc]; exact ih true
      · rw [if_neg hc]; exact consHead_ne_nil _ _
    | false =>
      by_cases hc : c = '\n'
      · subst hc
        cases rest with
        | nil => decide
        | cons c2 rest2 =>
          by_cases hc2 : c2 = '\n'
          · subst hc2
            have h1 : reSplitGo ('\n' :: '\n' :: rest2) false =
                [] :: reSplitGo rest2 true := by
              simp [reSplitGo]
            rw [h1]
            simp
          · have h1 : reSplitGo ('\n' :: c2 :: rest2) false =
                consHead '\n' (consHead c2 (reSplitGo rest2 false)) := by
              simp [reSplitGo, hc2]
            rw [h1]
            exact consHead_ne_nil _ _
      · have h1 : reSplitGo (c :: rest) false = consHead c (reSplitGo rest false) := by
          rw [reSplitGo.eq_def]
          simp [hc]
        rw [h1]
        exact consHead_ne_nil _ _

theorem joinNL_reSplitGo_aux :
    ∀ (n : Nat) (cs : List Char), cs.length ≤ n →
      ∀ b, joinNL (reSplitGo cs b) = collapseGo cs b := by
  intro n
  induction n with
  | zero =>
    intro cs h b
    have hnil : cs = [] := List.length_eq_zero.mp (by omega)
    subst hnil
    cases b <;> rfl
  | succ n ih =>
    intro cs hlen b
    cases cs with
    | nil => cases b <;> rfl
    | cons c rest =>
      have hrest : rest.length ≤ n := by
        simp only [List.length_cons] at hlen; omega
      cases b with
      | true =>
        by_cases hc : c = '\n'
        · simp only [reSplitGo, collapseGo, if_pos hc]
          exact ih rest hrest true
        · simp only [reSplitGo, collapseGo, if_neg hc]
          rw [joinNL_consHead, ih rest hrest false]
      | false =>
        by_cases hc : c = '\n'
        · subst hc
          cases rest with
          | nil => rfl
          | cons c2 rest2 =>
            have hrest2 : rest2.length ≤ n := by
              simp only [List.length_cons] at hlen; omega
            by_cases hc2 : c2 = '\n'
            · subst hc2
              show joinNL ([] :: reSplitGo rest2 true) = '\n' :: collapseGo rest2 true
              rw [joinNL_cons_nil_of_ne _ (reSplitGo_ne_nil rest2 true),
                ih rest2 hrest2 true]
            · show joinNL (if c2 = '\n' then [] :: reSplitGo rest2 true
                  else consHead '\n' (consHead c2 (reSplitGo rest2 false))) =
                if c2 = '\n' then '\n' :: collapseGo rest2 true
                  else '\n' :: c2 :: collapseGo rest2 false
              rw [if_neg hc2, if_neg hc2, joinNL_consHead, joinNL_consHead,
                ih rest2 hrest2 false]
        · have h1 : reSplitGo (c :: rest) false = consHead c (reSplitGo rest false) := by
            rw [reSplitGo.eq_def]
            simp [hc]
          have h2 : collapseGo (c :: rest) false = c :: collapseGo rest false := by
            rw [collapseGo.eq_def]
            simp [hc]
          rw [h1, h2, joinNL_consHead, ih rest hrest false]

theorem joinNL_reSplitNN (content : List Char) :
    joinNL (reSplitNN content) = collapseBlank content :=
  joinNL_reSplitGo_aux content.length content (Nat.le_refl _) false

theorem append_decomp (p : Nat) (cur Z : List Char) :
    cur ++ Z = cur.take p ++ ((cur.drop p).takeWhile Char.isWhitespace ++
      (((cur.drop p).dropWhile Char.isWhitespace) ++ Z)) := by
  conv_lhs => rw [← List.take_append_drop p cur,
    ← List.takeWhile_append_dropWhile (p := Char.isWhitespace) (l := cur.drop p)]
  rw [List.append_assoc, List.append_assoc]

theorem splitLongFuel_glue (limit : Nat) :
    ∀ (fuel : Nat) (cur fin : List Char) (l : List (List Char)),
      splitLongFuel limit fuel cur = some (l, fin) →
      ∀ (X : List (List Char)) (Z : List Char),
        Glue X (fin ++ Z) → Glue (l ++ X) (cur ++ Z) := by
  intro fuel
  induction fuel with
  | zero => intro cur fin l h; cases h
  | succ fuel ih =>
    intro cur fin l h X Z hg
    simp only [splitLongFuel] at h
    by_cases hc : count_tokens cur ≤ limit
    · rw [if_pos hc] at h
      simp only [Option.some.injEq, Prod.mk.injEq] at h
      obtain ⟨h1, h2⟩ := h
      subst h1
      subst h2
      simpa using hg
    · rw [if_neg hc] at h
      cases heq : splitLongFuel limit fuel
          ((cur.drop (splitPoint cur)).dropWhile Char.isWhitespace) with
      | none => rw [heq] at h; cases h
      | some r =>
        obtain ⟨l', fin'⟩ := r
        simp only [heq, Option.some.injEq, Prod.mk.injEq] at h
        obtain ⟨h1, h2⟩ := h
        subst h1
        subst h2
        have hg' := ih _ _ _ heq X Z hg
        rw [List.cons_append, append_decomp (splitPoint cur) cur Z]
        exact Glue.cons [] (cur.take (splitPoint cur)) _ _ wsOnly_nil
          (Glue.prependWS (wsOnly_takeWhile _) hg')

theorem glue_to_tail {X : List (List Char)} {c : List Char} {ss : List (List Char)}
    (h : Glue X (joinTarget c ss)) : Glue X (c ++ tailNL ss) := by
  by_cases hc : c = []
  · subst hc
    rw [List.nil_append]
    unfold joinTarget at h
    rw [if_pos rfl] at h
    cases ss with
    | nil => exact h
    | cons s ss' => exact Glue.prependWS wsOnly_nl h
  · unfold joinTarget at h
    rw [if_neg hc, joinNL_cons] at h
    exact h

theorem glue_step_combined {X : List (List Char)} {cur s : List Char}
    {ss : List (List Char)}
    (h : Glue X (joinTarget (cur ++ (if cur = [] then [] else ['\n']) ++ s) ss)) :
    Glue X (joinTarget cur (s :: ss)) := by
  by_cases hcur : cur = []
  · subst hcur
    have hcomb : ([] : List Char) ++ (if ([] : List Char) = [] then [] else ['\n']) ++ s
        = s := by simp
    rw [hcomb] at h
    unfold joinTarget
    rw [if_pos rfl, joinNL_cons]
    exact glue_to_tail h
  · have hcomb : cur ++ (if cur = [] then [] else ['\n']) ++ s = cur ++ '\n' :: s := by
      rw [if_neg hcur]; simp
    rw [hcomb] at h
    have hcne : cur ++ '\n' :: s ≠ [] := by simp
    unfold joinTarget at h ⊢
    rw [if_neg hcne, joinNL_cons] at h
    rw [if_neg hcur, joinNL_cons]
    have htgt : cur ++ tailNL (s :: ss) = (cur ++ '\n' :: s) ++ tailNL ss := by
      show cur ++ ('\n' :: joinNL (s :: ss)) = _
      rw [joinNL_cons]
      simp [List.append_assoc]
    rw [htgt]
    exact h

theorem refineGo_glue (limit : Nat) :
    ∀ (rest : List (List Char)) (cur : List Char) (out : List (List Char × Bool))
      (curF : List Char),
      refineGo limit rest cur = some (out, curF) →
      Glue (out.map Prod.fst ++ [curF]) (joinTarget cur rest) := by
  intro rest
  induction rest with
  | nil =>
    intro cur out curF h
    simp only [refineGo, Option.some.injEq, Prod.mk.injEq] at h
    obtain ⟨h1, h2⟩ := h
    subst h1
    subst h2
    have hjt : joinTarget cur [] = cur := by
      unfold joinTarget
      by_cases hc : cur = []
      · rw [if_pos hc, hc]; rfl
      · rw [if_neg hc]; rfl
    rw [hjt]
    simp only [List.map_nil, List.nil_append]
    have hg := Glue.cons [] cur [] [] wsOnly_nil (Glue.nil [] wsOnly_nil)
    simpa using hg
  | cons s rest ih =>
    intro cur out curF h
    simp only [refineGo] at h
    by_cases hc : count_tokens (cur ++ (if cur = [] then [] else ['\n']) ++ s) ≤ limit
    · simp only [if_pos hc] at h
      cases hsplit : splitLongFuel limit
          ((cur ++ (if cur = [] then [] else ['\n']) ++ s).length + 1)
          (cur ++ (if cur = [] then [] else ['\n']) ++ s) with
      | none => simp only [hsplit] at h; cases h
      | some r =>
        obtain ⟨em, cur2⟩ := r
        have h0 : splitLongFuel limit
            ((cur ++ (if cur = [] then [] else ['\n']) ++ s).length + 1)
            (cur ++ (if cur = [] then [] else ['\n']) ++ s) =
            some ([], cur ++ (if cur = [] then [] else ['\n']) ++ s) := by
          simp only [splitLongFuel, if_pos hc]
        rw [h0] at hsplit
        simp only [Option.some.injEq, Prod.mk.injEq] at hsplit
        obtain ⟨he, hc2⟩ := hsplit
        subst he
        subst hc2
        simp only [h0] at h
        cases hrec : refineGo limit rest
            (cur ++ (if cur = [] then [] else ['\n']) ++ s) with
        | none => simp only [hrec] at h; cases h
        | some r2 =>
          obtain ⟨out', curF'⟩ := r2
          simp only [hrec, Option.some.injEq, Prod.mk.injEq] at h
          obtain ⟨h1, h2⟩ := h
          subst h1
          subst h2
          have hg := ih _ out' curF' hrec
          apply glue_step_combined
          simpa using hg
    · simp only [if_neg hc] at h
      cases hsplit : splitLongFuel limit (s.length + 1) s with
      | none => simp only [hsplit] at h; cases h
      | some r =>
        obtain ⟨em, cur2⟩ := r
        simp only [hsplit] at h
        cases hrec : refineGo limit rest cur2 with
        | none => simp only [hrec] at h; cases h
        | some r2 =>
          obtain ⟨out', curF'⟩ := r2
          simp only [hrec, Option.some.injEq, Prod.mk.injEq] at h
          obtain ⟨h1, h2⟩ := h
          subst h1
          subst h2
          have hg := ih cur2 out' curF' hrec
          have hgZ : Glue (out'.map Prod.fst ++ [curF']) (cur2 ++ tailNL rest) :=
            glue_to_tail hg
          have hglue2 : Glue (em ++ (out'.map Prod.fst ++ [curF'])) (s ++ tailNL rest) := by
            have := splitLongFuel_glue limit (s.length + 1) s cur2 em hsplit
              (out'.map Prod.fst ++ [curF']) (tailNL rest) hgZ
            exact this
          by_cases hcur : cur = []
          · subst hcur
            have hX : ((if ([] : List Char) = [] then []
                    else [(([] : List Char), false)]) ++
                  em.map (fun p => (p, true)) ++ out').map Prod.fst ++ [curF'] =
                em ++ (out'.map Prod.fst ++ [curF']) := by
              simp [map_fst_comp_tag]
            rw [hX]
            unfold joinTarget
            rw [if_pos rfl, joinNL_cons]
            exact hglue2
          · have hX : ((if cur = [] then [] else [(cur, false)]) ++
                  em.map (fun p => (p, true)) ++ out').map Prod.fst ++ [curF'] =
                cur :: (em ++ (out'.map Prod.fst ++ [curF'])) := by
              rw [if_neg hcur]
              simp [map_fst_comp_tag]
            rw [hX]
            unfold joinTarget
            rw [if_neg hcur, joinNL_cons]
            have htgt : cur ++ tailNL (s :: rest) =
                [] ++ (cur ++ ('\n' :: (s ++ tailNL rest))) := by
              show cur ++ ('\n' :: joinNL (s :: rest)) = _
              rw [joinNL_cons]
              simp
            rw [htgt]
            exact Glue.cons [] cur ('\n' :: (s ++ tailNL rest))
              (em ++ (out'.map Prod.fst ++ [curF'])) wsOnly_nil
              (Glue.prependWS wsOnly_nl hglue2)

/-- Claim C3: for every non-empty document and positive budget, the
segments returned by the segmenter, concatenated in order with only
whitespace normalized at the joins (the `Glue` relation), reconstruct the
document with its blank-line runs collapsed at the primary split points —
no other characters are dropped or duplicated. -/
theorem C3_reconstruction (content : List Char) (limit : Nat)
    (segs : List (List Char)) (hlim : 1 ≤ limit) (hne : content ≠ [])
    (h : split_into_sections content limit = some segs) :
    Glue segs (collapseBlank content) := by
  unfold split_into_sections at h
  cases hT : split_into_sectionsT content limit with
  | none => rw [hT] at h; cases h
  | some tsegs =>
    rw [hT] at h
    simp at h
    subst h
    unfold split_into_sectionsT at hT
    cases hr : refineGo limit (reSplitNN content) [] with
    | none => rw [hr] at hT; cases hT
    | some r =>
      obtain ⟨out, curF⟩ := r
      simp only [hr, Option.some.injEq] at hT
      subst hT
      have hg := refineGo_glue limit (reSplitNN content) [] out curF hr
      have hjt : joinTarget [] (reSplitNN content) = collapseBlank content := by
        unfold joinTarget
        rw [if_pos rfl]
        exact joinNL_reSplitNN content
      rw [hjt] at hg
      by_cases hcf : curF = []
      · subst hcf
        have hdrop := Glue.dropLastEmpty (out.map Prod.fst) _ hg
        simpa using hdrop
      · have hmap : (out ++ if curF = [] then [] else [(curF, false)]).map Prod.fst =
            out.map Prod.fst ++ [curF] := by
          rw [if_neg hcf]
          simp
        rw [hmap]
        exact hg

/-- Witness for C3: on the document `"ab\n\ncd"` with budget 100 the single
returned segment `"ab\ncd"` glues back to the collapsed document. -/
theorem C3_witness :
    Glue ["ab\ncd".data] (collapseBlank "ab\n\ncd".data) :=
  C3_reconstruction "ab\n\ncd".data 100 ["ab\ncd".data] (by decide) (by decide)
    (by decide)
